import Mathlib

/-
Verification of the interpreter's typed-memory access and host-string-bridging
core (the `helpers` module): the OS-string/path marshalling layer, the
freeze-sensitive aggregate visitor, the random-byte shim and the call-frame
argument binding.

Modelling conventions:
- A memory allocation is a `List Nat` of byte values; addresses are byte
  offsets into the allocation.  Out-of-bounds accesses are errors (`none`),
  mirroring the interpreter's bounds-checked `Memory::write_bytes` and
  `Memory::read_c_str`.
- The host platform is fixed to the `cfg(unix)` compilation of the source:
  `bytes_to_os_str` / `os_str_to_bytes` are the identity on the byte content
  of the OS string, and the path-separator branches taken are the unix-host
  ones.
- Fallible operations return `Option`; `none` covers both recoverable
  interpreter errors and fatal panics, with the doc comment of each
  definition saying which source construct (an `?` error or an
  `assert!`/`bug!`/`expect` panic) the `none` mirrors.
-/

namespace Miri

/-- `Memory::write_bytes`: overwrite `data.length` bytes of the allocation
`mem` starting at offset `addr`; fails (`none`) when the range is out of
bounds. -/
def write_bytes (mem : List Nat) (addr : Nat) (data : List Nat) : Option (List Nat) :=
  if addr + data.length ≤ mem.length then
    some (mem.take addr ++ data ++ mem.drop (addr + data.length))
  else
    none

/-- `Memory::read_c_str`: the bytes from offset `addr` up to (and excluding)
the first 0 byte; fails (`none`) when no 0 byte occurs before the end of the
allocation (the scan would run out of bounds). -/
def read_c_str (mem : List Nat) (addr : Nat) : Option (List Nat) :=
  if (0 : Nat) ∈ mem.drop addr then
    some ((mem.drop addr).takeWhile (fun b => b != 0))
  else
    none

/-- `read_os_str_from_c_str` on a unix host: `bytes_to_os_str` is
`OsStr::from_bytes`, the identity on the byte content, so reading an OS
string is exactly reading the null-terminated byte sequence. -/
def read_os_str_from_c_str (mem : List Nat) (addr : Nat) : Option (List Nat) :=
  read_c_str mem addr

/-- `write_os_str_to_c_str` on a unix host (`os_str_to_bytes` is
`OsStr::as_bytes`, the identity): if `size <= bytes.len()` return
`(false, length)` without writing; otherwise write the bytes followed by one
0 terminator and return `(true, length)`.  The result carries the (possibly
updated) allocation together with the `(bool, u64)` pair of the source. -/
def write_os_str_to_c_str (os_str : List Nat) (mem : List Nat) (addr : Nat)
    (size : Nat) : Option (List Nat × Bool × Nat) :=
  let bytes := os_str
  let string_length := bytes.length
  if size ≤ string_length then
    some (mem, false, string_length)
  else
    (write_bytes mem addr (bytes ++ [0])).map (fun m => (m, true, string_length))

/-- Path-separator byte map applied by the unix-host branches of
`read_path_from_c_str` and `write_path_to_c_str` when the interpretation
target is Windows: the source maps every byte equal to 47, the code of the
slash separator, to 92, the code of the backslash separator, and leaves
every other byte unchanged.  (This is the map as written in the source; in
`read_path_from_c_str` it sits under the comment saying the conversion
should go from 92 to 47.) -/
def convert_separator (b : Nat) : Nat :=
  if b = 47 then 92 else b

/-- `read_path_from_c_str` on a unix host: read the null-terminated byte
sequence; if the target OS is Windows, apply `convert_separator` to every
byte; otherwise return the bytes unchanged. -/
def read_path_from_c_str (targetIsWindows : Bool) (mem : List Nat) (addr : Nat) :
    Option (List Nat) :=
  (read_os_str_from_c_str mem addr).map fun os =>
    if targetIsWindows then os.map convert_separator else os

/-- `write_path_to_c_str` on a unix host: if the target OS is Windows, apply
`convert_separator` (host separator 47 becomes target separator 92) to every
byte of the path, then delegate to `write_os_str_to_c_str`. -/
def write_path_to_c_str (targetIsWindows : Bool) (path : List Nat) (mem : List Nat)
    (addr : Nat) (size : Nat) : Option (List Nat × Bool × Nat) :=
  let os := if targetIsWindows then path.map convert_separator else path
  write_os_str_to_c_str os mem addr size

/-- `alloc_os_str_as_c_str`: allocate `os_str.len() + 1` bytes (a fresh
allocation, modelled with content 0), write the OS string into it with
capacity exactly that size, and return the allocation size together with its
final contents.  The `none` outcomes mirror the `.unwrap()` panic on a write
error and the `assert!` panic on a `fits == false` outcome. -/
def alloc_os_str_as_c_str (os_str : List Nat) : Option (Nat × List Nat) :=
  let size := os_str.length + 1
  let alloc := List.replicate size 0
  match write_os_str_to_c_str os_str alloc 0 size with
  | some (m, fits, _) => if fits then some (size, m) else none
  | none => none

/-- UTF-8 byte count of one Unicode code point; `OsStr::len` on a valid
UTF-8 string is the sum of these over its code points. -/
def utf8CharLen (c : Nat) : Nat :=
  if c < 0x80 then 1 else if c < 0x800 then 2 else if c < 0x10000 then 3 else 4

/-- Byte length (`OsStr::len`) of an OS string given as its list of Unicode
code points. -/
def utf8Len (s : List Nat) : Nat :=
  (s.map utf8CharLen).sum

/-- UTF-16 encoding of one Unicode code point: one unit below 0x10000, a
surrogate pair above. -/
def encodeChar16 (c : Nat) : List Nat :=
  if c < 0x10000 then [c]
  else [0xD800 + (c - 0x10000) / 0x400, 0xDC00 + (c - 0x10000) % 0x400]

/-- `str::encode_utf16` over the code points of the string, as used by
`os_str_to_u16vec` on a non-Windows host. -/
def encode_utf16 (s : List Nat) : List Nat :=
  (s.map encodeChar16).flatten

/-- `write_os_str_to_wide_str`: the string is given as its list of code
points, the allocation as a list of 16-bit units.  If `size` is not strictly
greater than the number of UTF-16 units, return `(false, length)` without
writing; otherwise write the units followed by one 0 terminator through
`mplace_field`, which is bounds-checked against the allocation length. -/
def write_os_str_to_wide_str (s : List Nat) (alloc : List Nat) (size : Nat) :
    Option (List Nat × Bool × Nat) :=
  let u16_vec := encode_utf16 s
  let string_length := u16_vec.length
  if size ≤ string_length then
    some (alloc, false, string_length)
  else if string_length + 1 ≤ alloc.length then
    some (u16_vec ++ [0] ++ alloc.drop (string_length + 1), true, string_length)
  else
    none

/-- `alloc_os_str_as_wide_str`: allocate `os_str.len() + 1` 16-bit units
(`os_str.len()` is the byte length `utf8Len`), write the OS string into it
with capacity exactly that size, and return the allocation size together
with its final contents.  The `none` outcomes mirror the `.unwrap()` panic
on a write error and the `assert!` panic on a `fits == false` outcome. -/
def alloc_os_str_as_wide_str (s : List Nat) : Option (Nat × List Nat) :=
  let size := utf8Len s + 1
  let alloc := List.replicate size 0
  match write_os_str_to_wide_str s alloc size with
  | some (m, fits, _) => if fits then some (size, m) else none
  | none => none

/-- Argument-binding loop of `call_function`, after the new frame for the
callee has been pushed: walk the supplied argument values, drawing for each
one the next parameter local from the callee's `args_iter()`; running out of
parameters is the `expect` panic (callee has fewer arguments than expected),
and a parameter remaining after the loop is the `expect_none` panic (callee
has more arguments than expected).  Both panics are modelled as `none`; on
success the result is the positional binding of parameters to arguments
performed by the `write_immediate` calls. -/
def call_function {P A : Type} : List P → List A → Option (List (P × A))
  | [], [] => some []
  | [], _ :: _ => none
  | _ :: _, [] => none
  | p :: ps, a :: rest => (call_function ps rest).map (fun t => (p, a) :: t)

/-- Interpreter state touched by `gen_random`: the single allocation written
to, the state of the seeded pseudo-random generator owned by the memory
subsystem, the remaining host entropy pool together with a count of accesses
to the host entropy source, and the process-wide communicate flag. -/
structure MachineState where
  mem : List Nat
  rngState : Nat
  hostPool : List Nat
  hostCalls : Nat
  communicate : Bool
deriving DecidableEq, Repr

/-- Drawing `len` bytes from the seeded pseudo-random generator
(`rng.fill_bytes`): a deterministic stand-in that steps the generator state
and produces `len` bytes derived from it. -/
def rngGet (st : MachineState) (len : Nat) : MachineState × List Nat :=
  ({ st with rngState := st.rngState + len },
   (List.range len).map (fun i => (st.rngState + i) % 256))

/-- Drawing `len` bytes from the host entropy source
(`getrandom::getrandom`): consumes the pool and counts the access; a host
failure (pool exhausted) is the recoverable unsupported-operation error. -/
def hostGet (st : MachineState) (len : Nat) : Option (MachineState × List Nat) :=
  if len ≤ st.hostPool.length then
    some ({ st with hostPool := st.hostPool.drop len, hostCalls := st.hostCalls + 1 },
          st.hostPool.take len)
  else
    none

/-- `gen_random`: a `len` of 0 returns success immediately, before the
pointer is inspected, any entropy source is consulted or any write happens.
Otherwise the buffer is filled from the host entropy source when
`communicate` is set and from the seeded generator when it is not, and the
bytes are written through the pointer (`none` models an invalid, null or
dangling pointer scalar, on which `Memory::write_bytes` fails). -/
def gen_random (st : MachineState) (ptr : Option Nat) (len : Nat) :
    Option MachineState :=
  if len = 0 then
    some st
  else
    match (if st.communicate then hostGet st len else some (rngGet st len)) with
    | none => none
    | some (st2, data) =>
      match ptr with
      | none => none
      | some addr =>
        (write_bytes st2.mem addr data).map (fun m => { st2 with mem := m })

/-! ## Freeze-sensitive aggregate visitor

Layout model: a type carries its size and, for an aggregate, its field
placement (`Array`, `Arbitrary` or `Union`), its variant scheme (`Single`
or `Multiple`) and its fields, each a byte offset paired with a type.  The
`unsafeCell` constructor is the ADT whose `did` is the `UnsafeCell` lang
item; it is never recursed into, so only its size matters. -/

inductive FieldPlacement where
  | array
  | arbitrary
  | union
deriving DecidableEq, Repr

inductive VariantsKind where
  | single
  | multiple
deriving DecidableEq, Repr

mutual
inductive Ty where
  | prim (size : Nat)
  | unsafeCell (size : Nat)
  | adt (size : Nat) (fp : FieldPlacement) (vk : VariantsKind) (fields : Fields)
inductive Fields where
  | nil
  | cons (offset : Nat) (ty : Ty) (rest : Fields)
end

/-- Layout size of a type (`layout.size`, which is also what
`size_and_align_of_mplace` falls back to for the sized types modelled
here). -/
def sizeOfTy : Ty → Nat
  | .prim s => s
  | .unsafeCell s => s
  | .adt s _ _ _ => s

/-- Whether the type is the `UnsafeCell` lang item
(`Some(adt.did) == lang_items().unsafe_cell_type()`). -/
def isUnsafeCellTy : Ty → Bool
  | .unsafeCell _ => true
  | _ => false

/-- Variant scheme of the layout (`layout.variants`); non-aggregates are
single-variant. -/
def variantsOf : Ty → VariantsKind
  | .adt _ _ vk _ => vk
  | _ => .single

/-- Number of fields of a field list (`fields` count passed to
`visit_union`). -/
def flen : Fields → Nat
  | .nil => 0
  | .cons _ _ rest => flen rest + 1

mutual
/-- `type_is_freeze`: a type is freeze when it contains no `UnsafeCell`
anywhere. -/
def typeIsFreeze : Ty → Bool
  | .prim _ => true
  | .unsafeCell _ => false
  | .adt _ _ _ fs => fieldsFreeze fs
/-- All field types of the list are freeze. -/
def fieldsFreeze : Fields → Bool
  | .nil => true
  | .cons _ t rest => typeIsFreeze t && fieldsFreeze rest
end

/-- Recursion measure for the visitor: size of a type. -/
def tsize : Ty → Nat
  | .prim _ => 1
  | .unsafeCell _ => 1
  | .adt _ _ _ fs => fsizeAux fs + 1
where
  /-- Recursion measure for the visitor: size of a field list. -/
  fsizeAux : Fields → Nat
  | .nil => 0
  | .cons _ t rest => tsize t + fsizeAux rest + 1

/-- Recursion measure for the visitor: size of a field list. -/
def fsize : Fields → Nat := tsize.fsizeAux

/-- Stable insertion of a field into a field list sorted by offset, placing
the inserted field before any field of equal offset already present (so that
the insertion sort below is stable, like `sort_by_key`). -/
def insertField (off : Nat) (t : Ty) : Fields → Fields
  | .nil => .cons off t .nil
  | .cons o2 t2 rest =>
    if o2 < off then .cons o2 t2 (insertField off t rest)
    else .cons off t (.cons o2 t2 rest)

/-- `places.sort_by_key(|place| place.ptr.assert_ptr().offset)`: stable sort
of the fields by byte offset, as an insertion sort. -/
def sortFields : Fields → Fields
  | .nil => .nil
  | .cons off t rest => insertField off t (sortFields rest)

/-- View of a field list as a plain list of (offset, type) pairs, used to
state order and permutation properties of the sort performed by
`visit_aggregate`. -/
def fieldsToList : Fields → List (Nat × Ty)
  | .nil => []
  | .cons o t rest => (o, t) :: fieldsToList rest

/-- Recursion-measure fact used to justify termination of the visitor:
inserting a field grows the measure by exactly the field's contribution. -/
def fsize_insertField (o : Nat) (t : Ty) :
    (fs2 : Fields) → fsize (insertField o t fs2) = tsize t + fsize fs2 + 1
  | .nil => by simp [insertField, fsize, tsize.fsizeAux]
  | .cons o2 t2 rest => by
    by_cases h : o2 < o
    · have ih := fsize_insertField o t rest
      simp only [insertField, if_pos h, fsize, tsize.fsizeAux] at ih ⊢
      omega
    · simp only [insertField, if_neg h, fsize, tsize.fsizeAux]

/-- Recursion-measure fact used to justify termination of the visitor:
sorting the fields leaves the measure unchanged. -/
def fsize_sortFields : (fs : Fields) → fsize (sortFields fs) = fsize fs
  | .nil => by simp [sortFields]
  | .cons o t rest => by
    have ih := fsize_sortFields rest
    have h2 := fsize_insertField o t (sortFields rest)
    simp only [sortFields, fsize, tsize.fsizeAux] at *
    omega

/-- A detected interior-mutable extent: the pointer offset the visitor's
`unsafe_cell_action` closure is called with, paired with the size it
computes for the place. -/
abbrev Cell := Nat × Nat

/-- The `unsafe_cell_action` closure stored in the `UnsafeCellVisitor`
(the one built inside `visit_freeze_sensitive`): compute the size of the
place and, unless it is zero, hand the extent on.  In this embedding the
handed-on extents are collected into a list in call order. -/
def foundCell (base : Nat) (t : Ty) : List Cell :=
  if sizeOfTy t ≠ 0 then [(base, sizeOfTy t)] else []

/-- `visit_union`: `assert!(fields > 0)` (primitives, the pseudo-unions with
0 fields, must never reach this), then fall back to whatever the static type
says: a freeze union is skipped, a non-freeze union is reported whole
through the visitor's cell action. -/
def visit_union (base : Nat) (t : Ty) (nfields : Nat) : Option (List Cell) :=
  if nfields = 0 then none
  else if typeIsFreeze t then some []
  else some (foundCell base t)

mutual
/-- `UnsafeCellVisitor::visit_value` at a place with pointer offset `base`:
an `UnsafeCell` is reported through the cell action without recursing; a
freeze type is skipped entirely; a remaining (non-freeze) type with
`Variants::Multiple` is reported whole through the cell action, without
choosing a variant or reading the discriminant; a non-freeze single-variant
type is walked structurally.  The result is the list of detected
interior-mutable extents in visit order (`none` marks a `bug!`/`assert!`
panic inside the walk). -/
def visitValue (base : Nat) (t : Ty) : Option (List Cell) :=
  if isUnsafeCellTy t then some (foundCell base t)
  else if typeIsFreeze t then some []
  else
    match variantsOf t with
    | .multiple => some (foundCell base t)
    | .single => walkValue base t
termination_by 4 * tsize t + 3
decreasing_by
  omega

/-- `walk_value` of the value visitor: a union layout is dispatched to
`visit_union`; any other aggregate generates its field places in index
order, each at `base + offset`, and hands them to `visit_aggregate`;
field-less values have nothing to walk. -/
def walkValue (base : Nat) (t : Ty) : Option (List Cell) :=
  match t with
  | .adt sz .union vk fs => visit_union base (.adt sz .union vk fs) (flen fs)
  | .adt _ .array _ fs => visit_aggregate base .array fs
  | .adt _ .arbitrary _ fs => visit_aggregate base .arbitrary fs
  | _ => some []
termination_by 4 * tsize t + 2
decreasing_by
  all_goals simp only [tsize, fsize]
  all_goals omega

/-- `UnsafeCellVisitor::visit_aggregate`: for an `Array` placement the field
iterator is walked unchanged (it already yields increasing offsets); for an
`Arbitrary` placement the sub-places are first fully collected and sorted by
offset, then walked; a `Union` placement is the `bug!` fatal internal error
(a union is not an aggregate this visitor should ever visit). -/
def visit_aggregate (base : Nat) (fp : FieldPlacement) (fs : Fields) :
    Option (List Cell) :=
  match fp with
  | .array => visitFields base fs
  | .arbitrary => visitFields base (sortFields fs)
  | .union => none
termination_by 4 * fsize fs + 1
decreasing_by
  · omega
  · rw [fsize_sortFields]
    omega

/-- `walk_aggregate`: walk the generated field places in sequence, each
field type at its own offset from the aggregate base, concatenating the
detected extents. -/
def visitFields (base : Nat) (fs : Fields) : Option (List Cell) :=
  match fs with
  | .nil => some []
  | .cons off t rest =>
    (visitValue (base + off) t).bind fun c =>
      (visitFields base rest).map fun cs => c ++ cs
termination_by 4 * fsize fs
decreasing_by
  · simp only [fsize, tsize.fsizeAux]
    omega
  · simp only [fsize, tsize.fsizeAux]
    omega
end

/-- A region reported to the caller-supplied `action`: starting offset, byte
size and the frozen flag. -/
abbrev Region := Nat × Nat × Bool

/-- The region-boundary closure `unsafe_cell_action` of
`visit_freeze_sensitive`, acting on the state `(end_ptr offset, action
calls so far)`: assert the cell offset is not before `end_ptr`; report the
gap up to the cell as frozen when it is nonempty; report the cell itself as
non-frozen when its size is nonzero; advance `end_ptr` to the end of the
cell. -/
def unsafe_cell_action (s : Nat × List Region) (cellOff cellSz : Nat) :
    Option (Nat × List Region) :=
  if s.1 ≤ cellOff then
    some (cellOff + cellSz,
      s.2 ++ (if cellOff - s.1 ≠ 0 then [(s.1, cellOff - s.1, true)] else [])
          ++ (if cellSz ≠ 0 then [(cellOff, cellSz, false)] else []))
  else
    none

/-- Process the detected interior-mutable extents in visit order through
`unsafe_cell_action` (in the source the closure is invoked online during the
visit; the collected list replays exactly that call sequence). -/
def foldCells (s : Nat × List Region) : List Cell → Option (Nat × List Region)
  | [] => some s
  | c :: rest =>
    match unsafe_cell_action s c.1 c.2 with
    | none => none
    | some s2 => foldCells s2 rest

/-- `visit_freeze_sensitive`: run the `UnsafeCellVisitor` over the place,
replay the detected extents through the region-boundary closure starting
from `end_ptr = place.ptr`, and finally pretend there is a 0-sized
`UnsafeCell` at `place.ptr + size` to flush the trailing frozen part.  The
result is the sequence of `action` calls `(offset, size, frozen)`. -/
def visit_freeze_sensitive (start : Nat) (size : Nat) (t : Ty) :
    Option (List Region) :=
  (visitValue start t).bind fun cells =>
    (foldCells (start, []) cells).bind fun s =>
      (unsafe_cell_action s (start + size) 0).map (fun s2 => s2.2)

/-- The contiguous-chain property of a region list: starting from offset
`a`, each region is nonempty and begins exactly where the previous one
ended, and the last one ends at `b`.  This packages non-emptiness,
contiguity (no gaps, no overlaps), strictly increasing offsets and the
endpoint conditions of a partition of `[a, b)`. -/
def chain : Nat → List Region → Nat → Prop
  | a, [], b => a = b
  | a, r :: rs, b => r.1 = a ∧ r.2.1 ≠ 0 ∧ chain (a + r.2.1) rs b

/-! ## Theorems -/

/-- A null-free prefix is exactly what `takeWhile` recovers in front of the
terminator. -/
theorem takeWhile_append_zero (l r : List Nat) (h : (0 : Nat) ∉ l) :
    ((l ++ 0 :: r).takeWhile (fun b => b != 0)) = l := by
  induction l with
  | nil => simp [List.takeWhile]
  | cons a rest ih =>
    have ha : a ≠ 0 := fun e => h (by simp [e])
    have hrest : (0 : Nat) ∉ rest := fun hm => h (List.mem_cons_of_mem _ hm)
    simp [List.takeWhile_cons, ha, ih hrest]

/-- Claim C1: for an OS string of byte length `n`, `write_os_str_to_c_str`
with capacity `size ≤ n` returns `(false, n)` and leaves the memory
untouched; with capacity `size > n` (and the target range in bounds) it
writes exactly the `n` bytes followed by one 0 terminator and returns
`(true, n)`; the returned length never counts the terminator. -/
theorem write_os_str_to_c_str_spec (os mem : List Nat) (addr size : Nat) :
    (size ≤ os.length →
      write_os_str_to_c_str os mem addr size = some (mem, false, os.length)) ∧
    (os.length < size → addr + os.length + 1 ≤ mem.length →
      write_os_str_to_c_str os mem addr size =
        some (mem.take addr ++ (os ++ [0]) ++ mem.drop (addr + (os.length + 1)),
          true, os.length)) := by
  constructor
  · intro h
    simp [write_os_str_to_c_str, h]
  · intro h hb
    have h1 : ¬ size ≤ os.length := by omega
    have h2 : addr + (os.length + 1) ≤ mem.length := by omega
    simp [write_os_str_to_c_str, h1, write_bytes, h2]

/-- Witness for claim C1 at concrete inputs: capacity 2 with a 2-byte string
refuses and leaves memory alone; capacity 4 writes the bytes plus one
terminator. -/
theorem write_os_str_to_c_str_spec_witness :
    write_os_str_to_c_str [1, 2] [5, 5, 5, 5, 5] 1 2 = some ([5, 5, 5, 5, 5], false, 2) ∧
    write_os_str_to_c_str [1, 2] [5, 5, 5, 5, 5] 1 4 = some ([5, 1, 2, 0, 5], true, 2) := by
  constructor
  · exact (write_os_str_to_c_str_spec [1, 2] [5, 5, 5, 5, 5] 1 2).1 (by decide)
  · have h := (write_os_str_to_c_str_spec [1, 2] [5, 5, 5, 5, 5] 1 4).2 (by decide) (by decide)
    simpa using h

/-- Claim C2, evaluated at the failing inputs: on a unix host with a Windows
target, `read_path_from_c_str` leaves the byte 92 (the target separator)
unchanged and instead rewrites 47 (the host separator) to 92 — the opposite
of the claimed (and source-commented) direction, under which the first read
would produce `[97, 47, 98]`. -/
theorem read_path_from_c_str_wrong_direction :
    read_path_from_c_str true [97, 92, 98, 0] 0 = some [97, 92, 98] ∧
    read_path_from_c_str true [97, 47, 98, 0] 0 = some [97, 92, 98] ∧
    write_path_to_c_str true [97, 47, 98] [9, 9, 9, 9] 0 4 =
      some ([97, 92, 98, 0], true, 3) := by
  decide

/-- Counterexample to claim C3 as stated: the 1-byte OS string consisting of
one 0 byte round-trips through a capacity-2 buffer to the empty string, not
to itself. -/
theorem roundtrip_nul_counterexample :
    write_os_str_to_c_str [0] [7, 7] 0 2 = some ([0, 0], true, 1) ∧
    read_os_str_from_c_str [0, 0] 0 = some [] ∧ ([] : List Nat) ≠ [0] := by
  decide

/-- Claim C3 (amended): for every OS string of byte length `n` containing no
0 byte, writing with capacity `n + 1` (into an in-bounds range) reports
`(true, n)` and reading back at the same address recovers the string
exactly. -/
theorem write_then_read_roundtrip (os mem : List Nat) (addr : Nat)
    (hnul : (0 : Nat) ∉ os) (hb : addr + os.length + 1 ≤ mem.length) :
    ∃ m, write_os_str_to_c_str os mem addr (os.length + 1) = some (m, true, os.length) ∧
      read_os_str_from_c_str m addr = some os := by
  refine ⟨mem.take addr ++ (os ++ [0]) ++ mem.drop (addr + (os.length + 1)), ?_, ?_⟩
  · have h1 : ¬ os.length + 1 ≤ os.length := by omega
    have h2 : addr + (os.length + 1) ≤ mem.length := by omega
    simp [write_os_str_to_c_str, h1, write_bytes, h2]
  · have hlen : (mem.take addr).length = addr := by
      simp
      omega
    have hdrop :
        (mem.take addr ++ (os ++ [0]) ++ mem.drop (addr + (os.length + 1))).drop addr =
          os ++ 0 :: mem.drop (addr + (os.length + 1)) := by
      rw [List.append_assoc, List.drop_left' hlen]
      simp
    have hmem : (0 : Nat) ∈ os ++ 0 :: mem.drop (addr + (os.length + 1)) := by simp
    simp only [read_os_str_from_c_str, read_c_str, hdrop, if_pos hmem]
    rw [takeWhile_append_zero _ _ hnul]

/-- Witness for claim C3 (amended) at a concrete input: the string
`[1, 2]` written at address 1 of a 4-byte buffer with capacity 3 and read
back. -/
theorem write_then_read_roundtrip_witness :
    ((0 : Nat) ∉ [1, 2]) ∧
    ∃ m, write_os_str_to_c_str [1, 2] [9, 9, 9, 9] 1 3 = some (m, true, 2) ∧
      read_os_str_from_c_str m 1 = some [1, 2] :=
  ⟨by decide, write_then_read_roundtrip [1, 2] [9, 9, 9, 9] 1 (by decide) (by decide)⟩

/-- One code point never takes more UTF-16 units than UTF-8 bytes. -/
theorem encodeChar16_length_le (c : Nat) : (encodeChar16 c).length ≤ utf8CharLen c := by
  simp only [encodeChar16, utf8CharLen]
  split_ifs
  all_goals simp only [List.length_cons, List.length_nil]
  all_goals omega

/-- A string never takes more UTF-16 units than UTF-8 bytes, so an
allocation of `os_str.len() + 1` wide units always fits the encoded string
plus terminator. -/
theorem encode_utf16_length_le (s : List Nat) : (encode_utf16 s).length ≤ utf8Len s := by
  induction s with
  | nil => simp [encode_utf16, utf8Len]
  | cons c cs ih =>
    have hc := encodeChar16_length_le c
    simp only [encode_utf16, utf8Len, List.map_cons, List.flatten_cons,
      List.length_append, List.sum_cons] at *
    omega

/-- Claim C6: `alloc_os_str_as_c_str` allocates exactly `length + 1` bytes
and ends with the value plus its terminator written there, and
`alloc_os_str_as_wide_str` allocates exactly `length + 1` 16-bit units
(`length` being `os_str.len()`) and ends with the encoded value plus its
terminator written at the base; both always reach `some`, i.e. the internal
write reports `fits == true` on every string and the fatal `assert!` branch
is unreachable. -/
theorem alloc_os_str_exact (os s : List Nat) :
    alloc_os_str_as_c_str os = some (os.length + 1, os ++ [0]) ∧
    alloc_os_str_as_wide_str s =
      some (utf8Len s + 1,
        encode_utf16 s ++ [0] ++
          List.replicate (utf8Len s - (encode_utf16 s).length) 0) := by
  constructor
  · have h1 : ¬ os.length + 1 ≤ os.length := by omega
    simp [alloc_os_str_as_c_str, write_os_str_to_c_str, h1, write_bytes]
  · have hle := encode_utf16_length_le s
    have h1 : ¬ utf8Len s + 1 ≤ (encode_utf16 s).length := by omega
    have h2 : (encode_utf16 s).length + 1 ≤
        (List.replicate (utf8Len s + 1) (0 : Nat)).length := by
      simp
      omega
    have h3 : utf8Len s + 1 - ((encode_utf16 s).length + 1) =
        utf8Len s - (encode_utf16 s).length := by omega
    simp [alloc_os_str_as_wide_str, write_os_str_to_wide_str, h1, h2,
      List.drop_replicate, h3, hle]

/-- Claim C7: `call_function` binds each argument positionally to the
corresponding parameter local when the counts agree, and panics (a
programming-error abort, not a recoverable guest error) whenever the counts
disagree, in either direction. -/
theorem call_function_arity {P A : Type} (params : List P) (args : List A) :
    (params.length = args.length → call_function params args = some (params.zip args)) ∧
    (params.length ≠ args.length → call_function params args = none) := by
  induction params generalizing args with
  | nil =>
    cases args with
    | nil => simp [call_function]
    | cons a rest => simp [call_function]
  | cons p ps ih =>
    cases args with
    | nil => simp [call_function]
    | cons a rest =>
      constructor
      · intro h
        have h2 := (ih rest).1 (by simpa using h)
        simp [call_function, h2]
      · intro h
        have h2 := (ih rest).2 (by simpa using h)
        simp [call_function, h2]

/-- Witness for claim C7 at concrete inputs: matching counts bind
positionally; one missing and one extra argument both abort. -/
theorem call_function_arity_witness :
    call_function [10, 11] [20, 21] = some [(10, 20), (11, 21)] ∧
    call_function [10, 11] [20] = none ∧
    call_function ([10] : List Nat) ([20, 21] : List Nat) = none := by
  refine ⟨?_, ?_, ?_⟩
  · simpa using (call_function_arity [10, 11] [20, 21]).1 rfl
  · exact (call_function_arity [10, 11] [20]).2 (by decide)
  · exact (call_function_arity [10] [20, 21]).2 (by decide)

/-- Claim C8: `gen_random` with length 0 succeeds and returns the machine
state unchanged — no memory write, no pseudo-random generator step and no
host entropy access — for every pointer scalar, valid (`some addr`) or not
(`none`, covering null and dangling pointers). -/
theorem gen_random_zero_len (st : MachineState) (ptr : Option Nat) :
    gen_random st ptr 0 = some st := by
  simp [gen_random]

/-- Claim C4: on an aggregate of total size 24 whose only interior-mutable
field sits at offset 8 with size 4 (here with an `Arbitrary` field
placement), `visit_freeze_sensitive` invokes the action exactly three times,
in order: frozen `[start, start+8)`, non-frozen `[start+8, start+12)`,
frozen `[start+12, start+24)`. -/
theorem visit_freeze_sensitive_example (start : Nat) :
    visit_freeze_sensitive start 24
      (Ty.adt 24 FieldPlacement.arbitrary VariantsKind.single
        (Fields.cons 0 (Ty.prim 8)
          (Fields.cons 8 (Ty.unsafeCell 4)
            (Fields.cons 12 (Ty.prim 12) Fields.nil)))) =
      some [(start, 8, true), (start + 8, 4, false), (start + 12, 12, true)] := by
  simp [visit_freeze_sensitive, visitValue, walkValue, visit_aggregate, visitFields,
        sortFields, insertField, typeIsFreeze, fieldsFreeze, isUnsafeCellTy, variantsOf,
        foundCell, sizeOfTy, foldCells, unsafe_cell_action]

/-- Inserting a field mirrors `List.orderedInsert` keyed on the offset. -/
theorem fieldsToList_insertField (o : Nat) (t : Ty) :
    (fs : Fields) → fieldsToList (insertField o t fs) =
      List.orderedInsert (fun x y : Nat × Ty => x.1 ≤ y.1) (o, t) (fieldsToList fs)
  | .nil => by simp [insertField, fieldsToList, List.orderedInsert]
  | .cons o2 t2 rest => by
    by_cases h : o2 < o
    · simp [insertField, h, fieldsToList, List.orderedInsert,
        fieldsToList_insertField o t rest, show ¬ o ≤ o2 by omega]
    · simp [insertField, h, fieldsToList, List.orderedInsert, show o ≤ o2 by omega]

/-- Sorting the fields mirrors `List.insertionSort` keyed on the offset. -/
theorem fieldsToList_sortFields :
    (fs : Fields) → fieldsToList (sortFields fs) =
      List.insertionSort (fun x y : Nat × Ty => x.1 ≤ y.1) (fieldsToList fs)
  | .nil => by simp [sortFields, fieldsToList, List.insertionSort]
  | .cons o t rest => by
    simp [sortFields, fieldsToList, List.insertionSort, fieldsToList_insertField,
      fieldsToList_sortFields rest]

/-- Claim C5: when the freeze-sensitive visitor recurses into an
aggregate's fields, an `Array` placement uses the field iterator's order
unchanged; an `Arbitrary` placement first materializes the sub-places and
sorts them by offset (the visited list is sorted by offset and is a
permutation of the declared fields); and a `Union` placement reaching this
path is the fatal `bug!` internal error. -/
theorem visit_aggregate_field_order (base : Nat) (fs : Fields) :
    visit_aggregate base FieldPlacement.array fs = visitFields base fs ∧
    (visit_aggregate base FieldPlacement.arbitrary fs = visitFields base (sortFields fs) ∧
      List.Sorted (fun x y : Nat × Ty => x.1 ≤ y.1) (fieldsToList (sortFields fs)) ∧
      (fieldsToList (sortFields fs)).Perm (fieldsToList fs)) ∧
    visit_aggregate base FieldPlacement.union fs = none := by
  refine ⟨?_, ⟨?_, ?_, ?_⟩, ?_⟩
  · simp [visit_aggregate]
  · simp [visit_aggregate]
  · rw [fieldsToList_sortFields]
    haveI : IsTotal (Nat × Ty) (fun x y => x.1 ≤ y.1) := ⟨fun a b => Nat.le_total a.1 b.1⟩
    haveI : IsTrans (Nat × Ty) (fun x y => x.1 ≤ y.1) :=
      ⟨fun _ _ _ h1 h2 => Nat.le_trans h1 h2⟩
    exact List.sorted_insertionSort _ _
  · rw [fieldsToList_sortFields]
    exact List.perm_insertionSort _ _
  · simp [visit_aggregate]

/-- Claim C9: a non-freeze value whose layout has `Variants::Multiple` is
reported whole as one interior-mutable extent through the unsafe-cell
action, with no recursion into any variant and no read of the discriminant,
while a non-freeze single-variant value is walked structurally
(`walk_value`). -/
theorem visit_value_variants (base sz : Nat) (fp : FieldPlacement) (fs : Fields)
    (hfreeze : typeIsFreeze (Ty.adt sz fp VariantsKind.multiple fs) = false)
    (hsz : sz ≠ 0) :
    visitValue base (Ty.adt sz fp VariantsKind.multiple fs) = some [(base, sz)] ∧
    visitValue base (Ty.adt sz fp VariantsKind.single fs) =
      walkValue base (Ty.adt sz fp VariantsKind.single fs) := by
  have hfreeze2 : typeIsFreeze (Ty.adt sz fp VariantsKind.single fs) = false := by
    simpa [typeIsFreeze] using hfreeze
  constructor
  · simp [visitValue, isUnsafeCellTy, hfreeze, variantsOf, foundCell, sizeOfTy, hsz]
  · simp [visitValue, isUnsafeCellTy, hfreeze2, variantsOf]

/-- Witness for claim C9 at a concrete input: a non-freeze multi-variant
aggregate of size 8 is reported as the single extent `(base, 8)`. -/
theorem visit_value_variants_witness :
    (typeIsFreeze (Ty.adt 8 FieldPlacement.arbitrary VariantsKind.multiple
        (Fields.cons 0 (Ty.unsafeCell 4) Fields.nil)) = false ∧ (8 : Nat) ≠ 0) ∧
    visitValue 0 (Ty.adt 8 FieldPlacement.arbitrary VariantsKind.multiple
        (Fields.cons 0 (Ty.unsafeCell 4) Fields.nil)) = some [(0, 8)] := by
  have hf : typeIsFreeze (Ty.adt 8 FieldPlacement.arbitrary VariantsKind.multiple
      (Fields.cons 0 (Ty.unsafeCell 4) Fields.nil)) = false := by
    simp [typeIsFreeze, fieldsFreeze]
  exact ⟨⟨hf, by decide⟩,
    (visit_value_variants 0 8 FieldPlacement.arbitrary
      (Fields.cons 0 (Ty.unsafeCell 4) Fields.nil) hf (by decide)).1⟩

/-- Chains concatenate. -/
theorem chain_append : ∀ (l1 : List Region) (a b c : Nat) (l2 : List Region),
    chain a l1 b → chain b l2 c → chain a (l1 ++ l2) c := by
  intro l1
  induction l1 with
  | nil =>
    intro a b c l2 h1 h2
    simp only [chain] at h1
    subst h1
    simpa using h2
  | cons r rs ih =>
    intro a b c l2 h1 h2
    obtain ⟨hr, hnz, hch⟩ := h1
    exact ⟨hr, hnz, ih _ _ _ _ hch h2⟩

/-- The sizes along a chain sum to the chain's extent. -/
theorem chain_sum : ∀ (l : List Region) (a b : Nat), chain a l b →
    a + (l.map fun r => r.2.1).sum = b := by
  intro l
  induction l with
  | nil =>
    intro a b h
    simp only [chain] at h
    simp [h]
  | cons r rs ih =>
    intro a b h
    obtain ⟨hr, hnz, hch⟩ := h
    have h2 := ih _ _ hch
    simp only [List.map_cons, List.sum_cons]
    omega

/-- Every region along a chain is nonempty. -/
theorem chain_sizes_ne : ∀ (l : List Region) (a b : Nat), chain a l b →
    ∀ r ∈ l, r.2.1 ≠ 0 := by
  intro l
  induction l with
  | nil =>
    intro a b _ r hr
    simp at hr
  | cons q qs ih =>
    intro a b h r hr
    obtain ⟨hq, hnz, hch⟩ := h
    rcases List.mem_cons.mp hr with h1 | h1
    · subst h1; exact hnz
    · exact ih _ _ hch r h1

/-- One step of the region-boundary closure preserves the chain
invariant: the accumulated action calls cover exactly `[start, end_ptr)`. -/
theorem unsafe_cell_action_chain (start : Nat) (s s2 : Nat × List Region)
    (off sz : Nat) (hch : chain start s.2 s.1)
    (he : unsafe_cell_action s off sz = some s2) :
    chain start s2.2 s2.1 := by
  unfold unsafe_cell_action at he
  by_cases hle : s.1 ≤ off
  · rw [if_pos hle] at he
    have hs2 := Option.some.inj he
    subst hs2
    have hA : chain s.1
        (if off - s.1 ≠ 0 then [(s.1, off - s.1, true)] else []) off := by
      by_cases hA0 : off - s.1 ≠ 0
      · simp only [if_pos hA0]
        exact ⟨rfl, hA0, by simp only [chain]; omega⟩
      · simp only [if_neg hA0, chain]
        omega
    have hB : chain off
        (if sz ≠ 0 then [(off, sz, false)] else []) (off + sz) := by
      by_cases hB0 : sz ≠ 0
      · simp only [if_pos hB0]
        exact ⟨rfl, hB0, by simp only [chain]⟩
      · simp only [if_neg hB0, chain]
        omega
    exact chain_append _ _ _ _ _ (chain_append _ _ _ _ _ hch hA) hB
  · rw [if_neg hle] at he
    exact absurd he (by simp)

/-- Replaying the detected extents preserves the chain invariant. -/
theorem foldCells_chain (start : Nat) : ∀ (cells : List Cell) (s s2 : Nat × List Region),
    chain start s.2 s.1 → foldCells s cells = some s2 → chain start s2.2 s2.1 := by
  intro cells
  induction cells with
  | nil =>
    intro s s2 h he
    simp only [foldCells] at he
    have := Option.some.inj he
    subst this
    exact h
  | cons c rest ih =>
    intro s s2 h he
    simp only [foldCells] at he
    cases hact : unsafe_cell_action s c.1 c.2 with
    | none => rw [hact] at he; exact absurd he (by simp)
    | some s3 =>
      rw [hact] at he
      exact ih s3 s2 (unsafe_cell_action_chain start s s3 c.1 c.2 h hact) he

/-- Claim C10: whenever `visit_freeze_sensitive` completes successfully,
the regions passed to the action partition `[start, start + size)`: they
are nonempty, contiguous and in strictly increasing offset order (the
`chain` predicate: each begins where the previous ended, the first at
`start`, the last ending at `start + size`), and their sizes sum to
`size`. -/
theorem visit_freeze_sensitive_partition (start size : Nat) (t : Ty)
    (regions : List Region)
    (h : visit_freeze_sensitive start size t = some regions) :
    chain start regions (start + size) ∧
    (regions.map fun r => r.2.1).sum = size ∧
    ∀ r ∈ regions, r.2.1 ≠ 0 := by
  unfold visit_freeze_sensitive at h
  obtain ⟨cells, hcells, h⟩ := Option.bind_eq_some.mp h
  obtain ⟨s, hs, h⟩ := Option.bind_eq_some.mp h
  obtain ⟨s2, hs2, hreg⟩ := Option.map_eq_some'.mp h
  have h0 : chain start (start, ([] : List Region)).2 (start, ([] : List Region)).1 := by
    simp only [chain]
  have hch := foldCells_chain start cells _ _ h0 hs
  have hch2 := unsafe_cell_action_chain start s s2 (start + size) 0 hch hs2
  have hend : s2.1 = start + size := by
    unfold unsafe_cell_action at hs2
    by_cases hle : s.1 ≤ start + size
    · rw [if_pos hle] at hs2
      have := Option.some.inj hs2
      subst this
      omega
    · rw [if_neg hle] at hs2
      exact absurd hs2 (by simp)
  subst hreg
  rw [hend] at hch2
  refine ⟨hch2, ?_, chain_sizes_ne _ _ _ hch2⟩
  have := chain_sum _ _ _ hch2
  omega

/-- Witness for claim C10 at a concrete input: an `UnsafeCell` of size 8
yields the single region `(0, 8, false)`, which partitions `[0, 8)`. -/
theorem visit_freeze_sensitive_partition_witness :
    visit_freeze_sensitive 0 8 (Ty.unsafeCell 8) = some [(0, 8, false)] ∧
    (chain 0 [(0, 8, false)] (0 + 8) ∧
      (([(0, 8, false)] : List Region).map fun r => r.2.1).sum = 8 ∧
      ∀ r ∈ ([(0, 8, false)] : List Region), r.2.1 ≠ 0) := by
  have he : visit_freeze_sensitive 0 8 (Ty.unsafeCell 8) = some [(0, 8, false)] := by
    simp [visit_freeze_sensitive, visitValue, isUnsafeCellTy, foundCell, sizeOfTy,
      foldCells, unsafe_cell_action]
  exact ⟨he, visit_freeze_sensitive_partition 0 8 _ _ he⟩

end Miri

